import Mathlib

/-!
Shallow embedding of `ruzzle_bare_minimum.py` (class `RuzzleSolver`).

Letters are `Char`, words are `List Char` (Python string concatenation is
list append), board cells are coordinate pairs `ℕ × ℕ`.  The dictionary
`DICTIONARY` and the prefix sets `PREFIXES` are run-time inputs of the
program (they are loaded from text files), so they appear as parameters
`D : List (List Char)` and `P : List (List (List Char))` (seven sets, for
prefix lengths 2..8, indexed by `length - 2` exactly as in the source).

The recursive search `dfs` mutates `self.possible_words`, `visited` and
`path` in place; the embedding passes that state explicitly: `dfs` returns
the list of records appended to `possible_words`, `visited` is a total
function `Cell → Bool` (the source uses a dict with every cell present),
and `path` is passed by value.  Every mutation of `visited`/`path` in the
source is undone before the next loop iteration, so the loop body is a
pure function of the loop variable and the iterations concatenate
(`List.flatMap`).  A `fuel` argument makes the recursion structural; the
source recursion consumes one unvisited cell per call, so any fuel larger
than the number of board cells is inert (proved below for the termination
claim).
-/

namespace Ruzzle

/-- Board coordinate `(row, column)`, 0-indexed, as in the source. -/
abbrev Cell : Type := ℕ × ℕ

/-- A word: Python string as list of characters. -/
abbrev Word : Type := List Char

/-- One element of `self.possible_words`: the tuple `(word, score, path)`
appended by `dfs`. -/
structure Found where
  word : Word
  score : ℕ
  path : List Cell
  deriving DecidableEq, Repr

/-- Ruzzle rule constants from the top of the source file. -/
def MIN_WORD_LEN : ℕ := 2

/-- Maximum word length constant (source: `MAX_WORD_LEN = 12`). -/
def MAX_WORD_LEN : ℕ := 12

/-- Board size constant (source: `BOARD_SIZE = 4`), used by `all_combos`. -/
def BOARD_SIZE : ℕ := 4

/-- Lower bound of the prefix window (source: `PREFIX_LOWER_BOUND = 2`). -/
def PREFIX_LOWER_BOUND : ℕ := 2

/-- Upper bound of the prefix window (source: `PREFIX_UPPER_BOUND = 8`). -/
def PREFIX_UPPER_BOUND : ℕ := 8

/-- The eight direction offsets of `gen_graph`, in source order. -/
def directions : List (ℤ × ℤ) :=
  [(1, 0), (-1, 0), (0, 1), (0, -1), (1, 1), (1, -1), (-1, 1), (-1, -1)]

/-- The adjacency list of `gen_graph` for one cell: the in-bounds
8-directional neighbours, in the order `directions` lists them.  The
source precomputes `graph` once in `__init__`; the values are identical. -/
def gen_graph (board_size : ℕ) (c : Cell) : List Cell :=
  directions.filterMap fun d =>
    let nx : ℤ := (c.1 : ℤ) + d.1
    let ny : ℤ := (c.2 : ℤ) + d.2
    if 0 ≤ nx ∧ nx < (board_size : ℤ) ∧ 0 ≤ ny ∧ ny < (board_size : ℤ) then
      some (nx.toNat, ny.toNat)
    else none

/-- The solver state read (but never written) by `dfs`: the slots
`board`, `points`, `word_int_mults`, `board_size` of `RuzzleSolver`.
The two matrices and the board are total functions; the source stores
lists of lists but only ever indexes them at in-bounds cells produced by
`gen_graph` or by the `all_combos` start loops. -/
structure Solver where
  board : Cell → Char
  points : Cell → ℕ
  word_int_mults : Cell → ℕ
  board_size : ℕ

/-- The dict assignment `visited[v] = True`. -/
def mark (visited : Cell → Bool) (c : Cell) : Cell → Bool :=
  fun d => if d = c then true else visited d

/-- The length bonus of lines 90/112 of the source:
`0 if len_word < 4 else 5 * (len_word - 4)`. -/
def lengthBonus (len_word : ℕ) : ℕ :=
  if len_word < 4 then 0 else 5 * (len_word - 4)

/-- `RuzzleSolver.dfs`, lines 83-125 of the source.  Parameters mirror
`dfs(self, visited, s, word, word_pts, word_mult, path)`; the returned
list is what this call appends to `self.possible_words`, in order.

Source-to-embedding notes, line by line:
* line 88-91: if `len(word) >= MIN_WORD_LEN and word in DICTIONARY`,
  append `(word, word_pts*word_mult + bonus, path[:])`;
* line 93: `visited[s] = True` becomes `mark visited s`;
* lines 94/101/125: the shared `path` buffer gets one slot which each
  iteration overwrites with `v`; pure rendering: the branch for `v` sees
  `path ++ [v]`;
* lines 97-98: iterate over `graph[s]`, skipping visited cells;
* lines 104-107: prefix pruning (`continue`);
* lines 109-114: at `len_word == MAX_WORD_LEN` with `temp_word` in the
  dictionary, the source appends `(word, ..., path)` — the un-extended
  `word`, the score of the un-extended word, and the *live* `path` list
  (despite the comment `append copy of path`); the embedding stores the
  value the buffer holds at that moment, `path ++ [v]`;
* lines 116-123: mark `v`, recurse, unmark — pure rendering: recurse on
  `mark` of the branch state; the unmark restores the state for the next
  iteration, which the `flatMap` rendering makes implicit. -/
def dfs (S : Solver) (D : List Word) (P : List (List Word)) :
    ℕ → (Cell → Bool) → Cell → Word → ℕ → ℕ → List Cell → List Found
  | 0, _, _, _, _, _, _ => []
  | fuel + 1, visited, s, word, word_pts, word_mult, path =>
    let len_word := word.length
    let hits : List Found :=
      if MIN_WORD_LEN ≤ len_word ∧ word ∈ D then
        [⟨word, word_pts * word_mult + lengthBonus len_word, path⟩]
      else []
    let visited1 := mark visited s
    hits ++ (gen_graph S.board_size s).flatMap fun v =>
      if visited1 v then [] else
      let temp_word := word ++ [S.board v]
      if MIN_WORD_LEN ≤ len_word + 1 then
        if PREFIX_LOWER_BOUND ≤ len_word + 1 ∧ len_word + 1 ≤ PREFIX_UPPER_BOUND ∧
            temp_word ∉ P.getD (len_word + 1 - PREFIX_LOWER_BOUND) [] then
          []
        else if len_word + 1 = MAX_WORD_LEN ∧ temp_word ∈ D then
          [⟨word, word_pts * word_mult + lengthBonus (len_word + 1), path ++ [v]⟩]
        else
          dfs S D P fuel (mark visited1 v) v temp_word (word_pts + S.points v)
            (word_mult * S.word_int_mults v) (path ++ [v])
      else
        dfs S D P fuel (mark visited1 v) v temp_word (word_pts + S.points v)
          (word_mult * S.word_int_mults v) (path ++ [v])

/-- `RuzzleSolver.all_combos` search loops (lines 132-135), with the dfs
fuel exposed.  For each start cell `(x, y)` with `x, y < BOARD_SIZE` a
fresh all-false `visited` and the one-cell path are used, exactly as in
the source. -/
def all_combos_fuel (S : Solver) (D : List Word) (P : List (List Word))
    (fuel : ℕ) : List Found :=
  (List.range BOARD_SIZE).flatMap fun x =>
    (List.range BOARD_SIZE).flatMap fun y =>
      dfs S D P fuel (fun _ => false) (x, y) [S.board (x, y)]
        (S.points (x, y)) (S.word_int_mults (x, y)) [(x, y)]

/-- `RuzzleSolver.all_combos` body, lines 132-136 (the memo check of
lines 129-130 is modelled separately for the caching claim).  The fuel
`S.board_size ^ 2 + 1` exceeds the pool of unvisited cells, so the fuel
guard never fires (proved in the termination development below). -/
def all_combos (S : Solver) (D : List Word) (P : List (List Word)) :
    List Found :=
  all_combos_fuel S D P (S.board_size ^ 2 + 1)

/-- Instrumentation of `dfs` for the recursion-depth claim: the same
control flow as `dfs`, returning the `word` argument of every `dfs`
invocation (the entry word first, then the words of the recursive calls,
in order).  Arguments that cannot influence control flow
(`word_pts`, `word_mult`, `path`) are dropped. -/
def dfsWords (S : Solver) (D : List Word) (P : List (List Word)) :
    ℕ → (Cell → Bool) → Cell → Word → List Word
  | 0, _, _, word => [word]
  | fuel + 1, visited, s, word =>
    let len_word := word.length
    let visited1 := mark visited s
    word :: (gen_graph S.board_size s).flatMap fun v =>
      if visited1 v then [] else
      let temp_word := word ++ [S.board v]
      if MIN_WORD_LEN ≤ len_word + 1 then
        if PREFIX_LOWER_BOUND ≤ len_word + 1 ∧ len_word + 1 ≤ PREFIX_UPPER_BOUND ∧
            temp_word ∉ P.getD (len_word + 1 - PREFIX_LOWER_BOUND) [] then
          []
        else if len_word + 1 = MAX_WORD_LEN ∧ temp_word ∈ D then
          []
        else
          dfsWords S D P fuel (mark visited1 v) v temp_word
      else
        dfsWords S D P fuel (mark visited1 v) v temp_word

/-- All cells of an `n × n` board, row-major (the key set of the
`visited` dict built in `all_combos`). -/
def cellsList (n : ℕ) : List Cell :=
  (List.range n).flatMap fun x => (List.range n).map fun y => (x, y)

/-- Number of in-bounds cells not yet visited: the measure that shrinks
at every recursive `dfs` call. -/
def unvisitedCount (n : ℕ) (visited : Cell → Bool) : ℕ :=
  (cellsList n).countP fun c => !visited c

/-- The `word` arguments of every `dfs` invocation performed by
`all_combos` (fuel as in `all_combos`). -/
def all_combos_words (S : Solver) (D : List Word) (P : List (List Word)) :
    List Word :=
  (List.range BOARD_SIZE).flatMap fun x =>
    (List.range BOARD_SIZE).flatMap fun y =>
      dfsWords S D P (S.board_size ^ 2 + 1) (fun _ => false) (x, y)
        [S.board (x, y)]

/-- Modelled from the spec (pruning-soundness claim): `dfs` with the
prefix-pruning membership test replaced by one that always passes, i.e.
the `continue` of source lines 105-107 removed.  Everything else is
identical to `dfs`. -/
def dfsNP (S : Solver) (D : List Word) :
    ℕ → (Cell → Bool) → Cell → Word → ℕ → ℕ → List Cell → List Found
  | 0, _, _, _, _, _, _ => []
  | fuel + 1, visited, s, word, word_pts, word_mult, path =>
    let len_word := word.length
    let hits : List Found :=
      if MIN_WORD_LEN ≤ len_word ∧ word ∈ D then
        [⟨word, word_pts * word_mult + lengthBonus len_word, path⟩]
      else []
    let visited1 := mark visited s
    hits ++ (gen_graph S.board_size s).flatMap fun v =>
      if visited1 v then [] else
      let temp_word := word ++ [S.board v]
      if MIN_WORD_LEN ≤ len_word + 1 then
        if len_word + 1 = MAX_WORD_LEN ∧ temp_word ∈ D then
          [⟨word, word_pts * word_mult + lengthBonus (len_word + 1), path ++ [v]⟩]
        else
          dfsNP S D fuel (mark visited1 v) v temp_word (word_pts + S.points v)
            (word_mult * S.word_int_mults v) (path ++ [v])
      else
        dfsNP S D fuel (mark visited1 v) v temp_word (word_pts + S.points v)
          (word_mult * S.word_int_mults v) (path ++ [v])

/-- `all_combos` on top of the pruning-free `dfsNP`. -/
def all_combosNP (S : Solver) (D : List Word) : List Found :=
  (List.range BOARD_SIZE).flatMap fun x =>
    (List.range BOARD_SIZE).flatMap fun y =>
      dfsNP S D (S.board_size ^ 2 + 1) (fun _ => false) (x, y) [S.board (x, y)]
        (S.points (x, y)) (S.word_int_mults (x, y)) [(x, y)]

/-- The correctness condition on the loaded prefix sets, from the data
model of the spec: for every dictionary word, every prefix of it whose
length lies in the prefix window is present in the set for that length. -/
def prefixClosed (D : List Word) (P : List (List Word)) : Prop :=
  ∀ d ∈ D, ∀ k ∈ Finset.Icc PREFIX_LOWER_BOUND PREFIX_UPPER_BOUND,
    k ≤ d.length → d.take k ∈ P.getD (k - PREFIX_LOWER_BOUND) []

instance (D : List Word) (P : List (List Word)) : Decidable (prefixClosed D P) :=
  inferInstanceAs (Decidable (∀ d ∈ D,
    ∀ k ∈ Finset.Icc PREFIX_LOWER_BOUND PREFIX_UPPER_BOUND,
      k ≤ d.length → d.take k ∈ P.getD (k - PREFIX_LOWER_BOUND) []))

/-- Consecutive cells of the list are 8-directionally adjacent:
each next cell is in the `gen_graph` adjacency list of its predecessor. -/
def adjacentChain (n : ℕ) : List Cell → Bool
  | [] => true
  | [_] => true
  | a :: b :: t => decide (b ∈ gen_graph n a) && adjacentChain n (b :: t)

/-- A simple path on the board spelling the word `W`: non-empty, no
repeated cell, consecutive cells 8-directionally adjacent (membership in
the `gen_graph` adjacency lists), all cells in bounds, and the cell
letters concatenate to `W`. -/
def spellsOn (S : Solver) (p : List Cell) (W : Word) : Prop :=
  p ≠ [] ∧ p.Nodup ∧
  adjacentChain S.board_size p = true ∧
  (∀ c ∈ p, c.1 < S.board_size ∧ c.2 < S.board_size) ∧
  p.map S.board = W

instance (S : Solver) (p : List Cell) (W : Word) : Decidable (spellsOn S p W) :=
  inferInstanceAs (Decidable (p ≠ [] ∧ p.Nodup ∧
    adjacentChain S.board_size p = true ∧
    (∀ c ∈ p, c.1 < S.board_size ∧ c.2 < S.board_size) ∧
    p.map S.board = W))

/-- Raw points of a path: sum of the (letter-multiplied) point values of
its cells, as the scoring claim words it. -/
def pathPoints (S : Solver) (p : List Cell) : ℕ :=
  (p.map S.points).sum

/-- Word-multiplier product of a path, as the scoring claim words it. -/
def pathWordMult (S : Solver) (p : List Cell) : ℕ :=
  (p.map S.word_int_mults).prod

/-- Python substring test `a in b` for strings (contiguous substring). -/
def pyIn (a b : Word) : Bool :=
  b.tails.any fun t => a.isPrefixOf t

/-- Stable insertion of a record into a score-sorted list: the new
record goes in front of the first record with the same or a larger
score.  Earlier list elements therefore stay in front of later ones
with equal score, which is the stability guarantee of Python sort. -/
def insertByScore (a : Found) : List Found → List Found
  | [] => [a]
  | b :: t => if a.score ≤ b.score then a :: b :: t else b :: insertByScore a t

/-- Stable ascending sort by score, modelling
`words_info.sort(key=lambda x: x[1])` (source line 145). -/
def sortByScore (l : List Found) : List Found :=
  l.foldr insertByScore []

/-- One Python dict assignment `m[key] = value` on a dict observed as a
lookup function. -/
def pyDictAssign (m : Word → Option (ℕ × List Cell)) (e : Found) :
    Word → Option (ℕ × List Cell) :=
  fun q => if q = e.word then some (e.score, e.path) else m q

/-- The dict comprehension
`{word: (score, path) for word, score, path in words_info}`: assignments
in list order into an initially empty dict, so a later record with the
same word overwrites an earlier one. -/
def pyDictOf (l : List Found) : Word → Option (ℕ × List Cell) :=
  l.foldl pyDictAssign fun _ => none

/-- `RuzzleSolver.check_words`, lines 138-153, as a function of the
dictionary and of `self.possible_words` (the source first runs
`all_combos` if that list is empty; the claims apply `check_words` to an
`all_combos` result).  Steps: keep records whose word is in the
dictionary, stable-sort ascending by score, optionally drop every record
whose word occurs as a substring of some retained word (source line 150;
the generator ranges over *all* retained words, each word included), and
build the word-keyed dict.  The source passes the `remove_bases` result
through a Python set of records before the dict build; the records are
tuples containing lists, so that step is observed only through the dict,
which the set's arbitrary iteration order would make non-deterministic —
but the line-150 filter condition is decided before any element enters
the set, and the claims only exercise the empty outcome, where order is
irrelevant. -/
def check_words (D : List Word) (possible_words : List Found)
    (remove_bases : Bool) : Word → Option (ℕ × List Cell) :=
  let words_info := possible_words.filter fun r => r.word ∈ D
  let words_info := sortByScore words_info
  let words_info :=
    if remove_bases then
      let all_words := words_info.map (·.word)
      words_info.filter fun j => all_words.all fun k => !(pyIn j.word k)
    else words_info
  pyDictOf words_info

/-- The letter-points table of `get_letter_pts` (source lines 191-195). -/
def letter_points : List (Char × ℕ) :=
  [('A', 1), ('B', 4), ('C', 4), ('D', 2), ('E', 1), ('F', 4), ('G', 3),
   ('H', 4), ('I', 1), ('J', 10), ('K', 5), ('L', 1), ('M', 3), ('N', 1),
   ('O', 1), ('P', 4), ('Q', 10), ('R', 1), ('S', 1), ('T', 1), ('U', 2),
   ('V', 4), ('W', 4), ('X', 8), ('Y', 4), ('Z', 8)]

/-- `RuzzleSolver.get_letter_pts`: dict lookup; a letter absent from the
table raises `KeyError`, modelled as `none`. -/
def get_letter_pts (l : Char) : Option ℕ :=
  letter_points.lookup l

/-- Python `str.isdigit` restricted to ASCII digit strings: non-empty
and every character a digit. -/
def pyIsDigit (s : List Char) : Bool :=
  !s.isEmpty && s.all fun c => c.isDigit

/-- Python `int` on a digit string (decimal value). -/
def pyInt (s : List Char) : ℕ :=
  s.foldl (fun a c => a * 10 + (c.toNat - 48)) 0

/-- The per-tag value computed by `word_mults_to_int_array` line 203:
`int(tag) if tag.isdigit() else 1`. -/
def tag_int_mult (m : List Char) : ℕ :=
  if pyIsDigit m then pyInt m else 1

/-- `RuzzleSolver.word_mults_to_int_array`, lines 198-204: reads
`word_mults[i][j]` for all `i, j < board_size` (an out-of-range read
raises `IndexError`, modelled as `none`) and converts each tag. -/
def word_mults_to_int_array (word_mults : List (List (List Char)))
    (board_size : ℕ) : Option (List (List ℕ)) :=
  (List.range board_size).mapM fun i =>
    (List.range board_size).mapM fun j => do
      let row ← word_mults.get? i
      let m ← row.get? j
      pure (tag_int_mult m)

/-- `RuzzleSolver.get_points`, lines 172-186: for the hard-coded range
`i, j < 4`, look up the letter points of `board[i][j]` (missing cell:
`IndexError`; letter outside the table: `KeyError`; both `none` here)
and apply the letter multiplier tag `D`/`T`. -/
def get_points (board : List (List Char))
    (word_mults : List (List (List Char))) : Option (List (List ℕ)) :=
  (List.range 4).mapM fun i =>
    (List.range 4).mapM fun j => do
      let row ← board.get? i
      let l ← row.get? j
      let pts ← get_letter_pts l
      let mrow ← word_mults.get? i
      let m ← mrow.get? j
      pure (if m = ['D'] then pts * 2 else if m = ['T'] then pts * 3 else pts)

/-- The slots filled by `RuzzleSolver.__init__` before any search (the
adjacency graph and the empty result containers are total and carry no
failure case; the lazy dictionary/prefix file loading is I/O outside the
core).  Board cells are single characters; multiplier tags are strings. -/
structure SolverData where
  board : List (List Char)
  word_mults : List (List (List Char))
  board_size : ℕ
  word_int_mults : List (List ℕ)
  points : List (List ℕ)
  deriving Repr

/-- `RuzzleSolver.__init__` with the default `board_size=None` (lines
42-53): `board_size = len(board)`, then `word_mults_to_int_array`, then
`get_points`; an uncaught `KeyError`/`IndexError` in either aborts
construction (`none`). -/
def initSolver (board : List (List Char))
    (word_mults : List (List (List Char))) : Option SolverData :=
  let board_size := board.length
  do
    let wim ← word_mults_to_int_array word_mults board_size
    let pts ← get_points board word_mults
    pure ⟨board, word_mults, board_size, wim, pts⟩

/-- Every letter of the 4×4 core read by `get_points` (the first four
entries of each row) has a point value in the letter table, i.e. is an
uppercase A–Z letter. -/
def lettersOk (board : List (List Char)) : Prop :=
  ∀ row ∈ board, ∀ l ∈ row.take 4, (get_letter_pts l).isSome = true

instance (board : List (List Char)) : Decidable (lettersOk board) :=
  inferInstanceAs (Decidable (∀ row ∈ board, ∀ l ∈ row.take 4,
    (get_letter_pts l).isSome = true))

/-- A square board: every row as long as the list of rows. -/
def IsSquareBoard (board : List (List Char)) : Prop :=
  ∀ row ∈ board, row.length = board.length

instance (board : List (List Char)) : Decidable (IsSquareBoard board) :=
  inferInstanceAs (Decidable (∀ row ∈ board, row.length = board.length))

/-- The solver state seen by `all_combos`: the read-only search inputs
plus the `possible_words` slot it reads and writes. -/
structure SearchState where
  solver : Solver
  D : List Word
  P : List (List Word)
  possible_words : List Found

/-- `RuzzleSolver.all_combos`, lines 127-136, with its memo check: if
`self.possible_words` is non-empty (Python truthiness) it is returned
unchanged and no search runs; otherwise the search fills the slot and
the filled list is returned.  Result: the new state and the returned
list. -/
def all_combos_cached (st : SearchState) : SearchState × List Found :=
  if st.possible_words ≠ [] then (st, st.possible_words)
  else
    let r := all_combos st.solver st.D st.P
    ({ st with possible_words := r }, r)

/-! Concrete fixtures used by counterexamples and witnesses. -/

/-- All-`A` board with unit points and multipliers. -/
def S1 : Solver :=
  ⟨fun _ => 'A', fun _ => 1, fun _ => 1, 4⟩

/-- Dictionary containing only the one-letter word `A`. -/
def D1 : List Word := [['A']]

/-- Empty prefix sets: correct for `D1`, whose only word has no prefix
of length ≥ 2. -/
def P1 : List (List Word) := [[], [], [], [], [], [], []]

/-- Board letters for the 12-letter-word scenario: the word
`ABCDEFGHIJKL` lies on the path down column 1, up column 2, then down
column 3; column 0 holds the unused letters `M N O P`. -/
def board12fn : Cell → Char := fun c =>
  match c with
  | (0, 1) => 'A' | (1, 1) => 'B' | (2, 1) => 'C' | (3, 1) => 'D'
  | (3, 2) => 'E' | (2, 2) => 'F' | (1, 2) => 'G' | (0, 2) => 'H'
  | (0, 3) => 'I' | (1, 3) => 'J' | (2, 3) => 'K' | (3, 3) => 'L'
  | (0, 0) => 'M' | (1, 0) => 'N' | (2, 0) => 'O' | _ => 'P'

/-- Solver for the 12-letter-word scenario: letter points from the
source table, all multiplier factors 1 (tags `-`). -/
def S12 : Solver :=
  ⟨board12fn, fun c => (get_letter_pts (board12fn c)).getD 0, fun _ => 1, 4⟩

/-- The 12-letter dictionary word of the scenario. -/
def w12 : Word := ['A', 'B', 'C', 'D', 'E', 'F', 'G', 'H', 'I', 'J', 'K', 'L']

/-- Its 11-letter proper prefix (not a dictionary word). -/
def w11 : Word := ['A', 'B', 'C', 'D', 'E', 'F', 'G', 'H', 'I', 'J', 'K']

/-- The 12-cell path spelling `w12` on `S12`. -/
def p12 : List Cell :=
  [(0, 1), (1, 1), (2, 1), (3, 1), (3, 2), (2, 2), (1, 2), (0, 2),
   (0, 3), (1, 3), (2, 3), (3, 3)]

/-- Dictionary of the scenario: just the 12-letter word. -/
def D12 : List Word := [w12]

/-- Prefix sets for `D12`: for each length 2..8 exactly the prefix of
`w12` of that length. -/
def P12 : List (List Word) :=
  [[w12.take 2], [w12.take 3], [w12.take 4], [w12.take 5],
   [w12.take 6], [w12.take 7], [w12.take 8]]

/-- Board letters for the deep-recursion scenario: the 8-letter prefix
path `ABCDEFGH` walls off cells `I J K L M` (row 3 plus `(2,3)`),
through which the search recurses freely past length 12; the cells
`N O P` in row 0 stay unreachable once the wall is visited. -/
def board8fn : Cell → Char := fun c =>
  match c with
  | (0, 3) => 'A' | (1, 3) => 'B' | (1, 2) => 'C' | (2, 2) => 'D'
  | (2, 1) => 'E' | (1, 1) => 'F' | (1, 0) => 'G' | (2, 0) => 'H'
  | (3, 0) => 'I' | (3, 1) => 'J' | (3, 2) => 'K' | (3, 3) => 'L'
  | (2, 3) => 'M' | (0, 0) => 'N' | (0, 1) => 'O' | _ => 'P'

/-- Solver for the deep-recursion scenario. -/
def S8 : Solver :=
  ⟨board8fn, fun c => (get_letter_pts (board8fn c)).getD 0, fun _ => 1, 4⟩

/-- The 8-letter guide string of the deep-recursion scenario. -/
def w8 : Word := ['A', 'B', 'C', 'D', 'E', 'F', 'G', 'H']

/-- Prefix sets whose window funnels the search along `w8`; the
dictionary is empty, so no 12-letter stop ever fires. -/
def P8 : List (List Word) :=
  [[w8.take 2], [w8.take 3], [w8.take 4], [w8.take 5],
   [w8.take 6], [w8.take 7], [w8]]

/-- A 13-letter accumulated word the search reaches on `S8`. -/
def w13 : Word :=
  ['A', 'B', 'C', 'D', 'E', 'F', 'G', 'H', 'I', 'J', 'K', 'L', 'M']

/-- Found records for the base-word-suppression example: `ART` and
`PARTY`, both dictionary words. -/
def recsART : List Found :=
  [⟨['A', 'R', 'T'], 3, []⟩, ⟨['P', 'A', 'R', 'T', 'Y'], 11, []⟩]

/-- Dictionary for the base-word-suppression example. -/
def dictART : List Word :=
  [['A', 'R', 'T'], ['P', 'A', 'R', 'T', 'Y']]

/-- Board for the pruning-soundness witness: one `A` next to one `B`. -/
def S7 : Solver :=
  ⟨fun c => match c with
    | (0, 0) => 'A' | (0, 1) => 'B' | _ => 'Q',
   fun _ => 1, fun _ => 1, 4⟩

/-- Dictionary for the pruning-soundness witness. -/
def D7 : List Word := [['A', 'B']]

/-- Prefix sets for `D7`, satisfying `prefixClosed`. -/
def P7 : List (List Word) := [[['A', 'B']], [], [], [], [], [], []]

/-- A non-square board: row 0 has five letters, rows 1-3 have four. -/
def board5 : List (List Char) :=
  [['A', 'B', 'C', 'D', 'E'],
   ['F', 'G', 'H', 'I'],
   ['J', 'K', 'L', 'M'],
   ['N', 'O', 'P', 'Q']]

/-- A 4×4 multiplier grid of `-` tags. -/
def mults4 : List (List (List Char)) :=
  List.replicate 4 (List.replicate 4 ['-'])

/-- A well-formed square 4×4 board. -/
def board4 : List (List Char) :=
  [['A', 'B', 'C', 'D'],
   ['F', 'G', 'H', 'I'],
   ['J', 'K', 'L', 'M'],
   ['N', 'O', 'P', 'Q']]

/-- A solver state whose `possible_words` slot is already filled. -/
def stCached : SearchState :=
  ⟨S1, D1, P1, [⟨['A', 'B'], 1, []⟩]⟩

/-! Theorems. -/

/-- Evaluation of the full search on the 12-letter-word scenario: the
only record the search emits carries the 11-letter prefix `w11` as its
word, score 79, and the full 12-cell path (source lines 110-114). -/
theorem allCombos12_eval : all_combos S12 D12 P12 = [⟨w11, 79, p12⟩] := by
  decide

/-- C1 (counterexample): with correct prefix sets, the one-letter
dictionary word `A` is spelled by a simple path on the board but is
never reported by `all_combos` (the emission requires
`MIN_WORD_LEN = 2` letters). -/
theorem C1_coverage_cex :
    prefixClosed D1 P1 ∧ ['A'] ∈ D1 ∧ spellsOn S1 [(0, 0)] ['A'] ∧
      ['A'] ∉ (all_combos S1 D1 P1).map Found.word := by
  refine ⟨by decide, by decide, by decide, by decide⟩

/-- C2 (code bug, source line 113): on the 12-letter-word board the
search emits a single record whose path is the 12-cell path spelling
`w12 = ABCDEFGHIJKL` while its word is the 11-letter `w11`, so the
record's path letters do not concatenate to its word. -/
theorem C2_path_validity_bug :
    all_combos S12 D12 P12 = [⟨w11, 79, p12⟩] ∧
      p12.map S12.board = w12 ∧ w12 ≠ w11 ∧ p12.Nodup := by
  exact ⟨allCombos12_eval, by decide, by decide, by decide⟩

/-- C3 (code bug, source lines 110-113): the emitted word `w11` is not
a member of the dictionary (`dfs` checked `temp_word ∈ DICTIONARY` but
appended `word`). -/
theorem C3_false_positive_bug :
    w11 ∈ (all_combos S12 D12 P12).map Found.word ∧ w11 ∉ D12 := by
  constructor
  · rw [allCombos12_eval]; decide
  · decide

/-- C4 (code bug, source lines 111-113): the length-bonus boundaries
hold as claimed, but the record emitted on the 12-letter-word board has
score 79, not `rawPoints * wordMult + lengthBonus length = 75` for its
own path and word (the last cell's points and multiplier are dropped
and the bonus uses length 12 for an 11-letter word). -/
theorem C4_score_bug :
    lengthBonus 3 = 0 ∧ lengthBonus 4 = 0 ∧ lengthBonus 5 = 5 ∧
      lengthBonus 9 = 25 ∧
      ∃ r ∈ all_combos S12 D12 P12,
        r.score ≠ pathPoints S12 r.path * pathWordMult S12 r.path +
          lengthBonus r.word.length := by
  refine ⟨by decide, by decide, by decide, by decide, ⟨w11, 79, p12⟩, ?_, by decide⟩
  rw [allCombos12_eval]; exact List.mem_singleton.mpr rfl

/-- C5 (code bug, source line 150): with `remove_bases=True` the filter
`all(j[0] not in k for k in all_words)` compares each word against every
retained word including itself, and every word is a substring of itself,
so *every* record is dropped: both `ART` and `PARTY` disappear, where
the claim keeps `PARTY`.  Without the flag, `ART` is retained. -/
theorem C5_remove_bases_bug :
    check_words dictART recsART true ['A', 'R', 'T'] = none ∧
      check_words dictART recsART true ['P', 'A', 'R', 'T', 'Y'] = none ∧
      check_words dictART recsART false ['A', 'R', 'T'] = some (3, []) := by
  refine ⟨by decide, by decide, by decide⟩

/-- C6 (counterexample): on the 12-letter-word board, `w11` is the word
of a found record, yet the mapping built by `check_words` has no entry
for it (the record is dropped by the dictionary re-filter because the
search emitted a non-dictionary word). -/
theorem C6_best_per_word_cex :
    (∃ r ∈ all_combos S12 D12 P12, r.word = w11) ∧
      check_words D12 (all_combos S12 D12 P12) false w11 = none := by
  constructor
  · exact ⟨⟨w11, 79, p12⟩, by rw [allCombos12_eval]; exact List.mem_singleton.mpr rfl, rfl⟩
  · rw [allCombos12_eval]; decide

/-- Step-unfolding of the adjacency-chain test. -/
theorem adjacentChain_cons (n : ℕ) (a b : Cell) (t : List Cell) :
    adjacentChain n (a :: b :: t) = true ↔
      b ∈ gen_graph n a ∧ adjacentChain n (b :: t) = true := by
  simp [adjacentChain]

/-- Coverage workhorse: if the still-unconsumed cells `rest` extend the
accumulated `word` to the dictionary word `W` along unvisited, pairwise
adjacent cells, and `W` has length 2..11, then the `dfs` call emits a
record whose word is `W`.  Induction over `rest`: the prefix-closure
hypothesis makes every pruning test on the way pass, and the max-length
stop never fires below length 12. -/
theorem dfs_covers (S : Solver) (D : List Word) (P : List (List Word))
    (hP : prefixClosed D P) (W : Word) (hWD : W ∈ D)
    (h2 : MIN_WORD_LEN ≤ W.length) (h11 : W.length ≤ 11) :
    ∀ (rest : List Cell) (fuel : ℕ) (visited : Cell → Bool) (s : Cell)
      (word : Word) (word_pts word_mult : ℕ) (path : List Cell),
      rest.length < fuel →
      1 ≤ word.length →
      word ++ rest.map S.board = W →
      rest.Nodup → s ∉ rest →
      (∀ c ∈ rest, visited c = false) →
      adjacentChain S.board_size (s :: rest) = true →
      W ∈ (dfs S D P fuel visited s word word_pts word_mult path).map Found.word := by
  intro rest
  induction rest with
  | nil =>
    intro fuel visited s word word_pts word_mult path hfuel hw1 hcat hnd hns hunvis hchain
    obtain ⟨f, rfl⟩ : ∃ f, fuel = f + 1 := ⟨fuel - 1, by omega⟩
    simp only [List.map_nil, List.append_nil] at hcat
    subst hcat
    simp only [dfs]
    rw [if_pos ⟨h2, hWD⟩]
    exact List.mem_map.mpr ⟨_, List.mem_append_left _ (List.mem_singleton_self _), rfl⟩
  | cons v rest2 ih =>
    intro fuel visited s word word_pts word_mult path hfuel hw1 hcat hnd hns hunvis hchain
    obtain ⟨f, rfl⟩ : ∃ f, fuel = f + 1 := ⟨fuel - 1, by omega⟩
    have hadj := (adjacentChain_cons S.board_size s v rest2).mp hchain
    have hsv : s ≠ v := fun h => hns (h ▸ List.mem_cons_self v rest2)
    have hsrest : s ∉ rest2 := fun h => hns (List.mem_cons_of_mem v h)
    have hnd2 := List.nodup_cons.mp hnd
    have hvun : visited v = false := hunvis v (List.mem_cons_self v rest2)
    have hcat2 : (word ++ [S.board v]) ++ rest2.map S.board = W := by
      simpa [List.append_assoc] using hcat
    have hlenW : word.length + 1 + rest2.length = W.length := by
      have := congrArg List.length hcat2
      simp at this
      omega
    have hunvis2 : ∀ c ∈ rest2, mark (mark visited s) v c = false := by
      intro c hc
      have hcv : c ≠ v := fun h => hnd2.1 (h ▸ hc)
      have hcs : c ≠ s := fun h => hsrest (h ▸ hc)
      simp [mark, hcv, hcs, hunvis c (List.mem_cons_of_mem v hc)]
    have hIH := ih f (mark (mark visited s) v) v (word ++ [S.board v])
      (word_pts + S.points v) (word_mult * S.word_int_mults v) (path ++ [v])
      (by simpa using Nat.lt_of_succ_lt_succ hfuel) (by simp)
      hcat2 hnd2.2 hnd2.1 hunvis2 hadj.2
    obtain ⟨r, hr, hrw⟩ := List.mem_map.mp hIH
    have hvs : v ≠ s := Ne.symm hsv
    have hm0 : mark visited s v = false := by
      simp [mark, hvs, hvun]
    have hmin : MIN_WORD_LEN ≤ word.length + 1 := by
      unfold MIN_WORD_LEN
      omega
    have hcut : ¬ (PREFIX_LOWER_BOUND ≤ word.length + 1 ∧
        word.length + 1 ≤ PREFIX_UPPER_BOUND ∧
        word ++ [S.board v] ∉ P.getD (word.length + 1 - PREFIX_LOWER_BOUND) []) := by
      rintro ⟨ha, hb, hc⟩
      apply hc
      have hlen : word.length + 1 ≤ W.length := by omega
      have htake := hP W hWD (word.length + 1) (Finset.mem_Icc.mpr ⟨ha, hb⟩) hlen
      have heq : W.take (word.length + 1) = word ++ [S.board v] := by
        rw [← hcat2]
        have hl : (word ++ [S.board v]).length = word.length + 1 := by simp
        rw [← hl, List.take_left]
      rwa [heq] at htake
    have hmax : ¬ (word.length + 1 = MAX_WORD_LEN ∧ word ++ [S.board v] ∈ D) := by
      rintro ⟨h12, -⟩
      have hle : word.length + 1 ≤ 11 := by omega
      rw [h12] at hle
      exact absurd hle (by decide)
    simp only [dfs]
    refine List.mem_map.mpr ⟨r, List.mem_append_right _ ?_, hrw⟩
    refine List.mem_flatMap.mpr ⟨v, hadj.1, ?_⟩
    simp only [hm0, Bool.false_eq_true, if_false, if_pos hmin, if_neg hcut, if_neg hmax]
    exact hr

/-- C1 (amended): on the 4×4 board, for every dictionary word of length
2 to 11 spelled by some simple path of adjacent cells, `all_combos`
reports that word, provided the loaded prefix sets contain every
windowed prefix of every dictionary word. -/
theorem C1_coverage_amended (S : Solver) (D : List Word) (P : List (List Word))
    (W : Word) (p : List Cell) (hsz : S.board_size = 4) (hP : prefixClosed D P)
    (hWD : W ∈ D) (h2 : MIN_WORD_LEN ≤ W.length) (h11 : W.length ≤ 11)
    (hspell : spellsOn S p W) :
    W ∈ (all_combos S D P).map Found.word := by
  obtain ⟨hne, hnd, hchain, hbound, hmap⟩ := hspell
  obtain ⟨s, rest, rfl⟩ : ∃ s rest, p = s :: rest := by
    cases p with
    | nil => exact absurd rfl hne
    | cons a t => exact ⟨a, t, rfl⟩
  obtain ⟨sx, sy⟩ := s
  have hsb := hbound (sx, sy) (List.mem_cons_self _ rest)
  have hcat : [S.board (sx, sy)] ++ rest.map S.board = W := by
    simpa using hmap
  have hplen : rest.length + 1 = W.length := by
    have := congrArg List.length hmap
    simpa [Nat.add_comm] using this
  have hnd2 := List.nodup_cons.mp hnd
  have hcov := dfs_covers S D P hP W hWD h2 h11 rest (S.board_size ^ 2 + 1)
    (fun _ => false) (sx, sy) [S.board (sx, sy)] (S.points (sx, sy))
    (S.word_int_mults (sx, sy)) [(sx, sy)]
    (by rw [hsz]; omega) (by simp) hcat hnd2.2 hnd2.1
    (fun c _ => rfl) hchain
  obtain ⟨r, hr, hrw⟩ := List.mem_map.mp hcov
  refine List.mem_map.mpr ⟨r, ?_, hrw⟩
  unfold all_combos all_combos_fuel
  refine List.mem_flatMap.mpr ⟨sx, List.mem_range.mpr ?_, ?_⟩
  · rw [hsz] at hsb
    simpa [BOARD_SIZE] using hsb.1
  refine List.mem_flatMap.mpr ⟨sy, List.mem_range.mpr ?_, ?_⟩
  · rw [hsz] at hsb
    simpa [BOARD_SIZE] using hsb.2
  exact hr

/-- C1 witness: the amended coverage applied to the word `AB` spelled
at the top-left of the `S7` fixture. -/
theorem C1_coverage_witness :
    S7.board_size = 4 ∧ prefixClosed D7 P7 ∧ ['A', 'B'] ∈ D7 ∧
      MIN_WORD_LEN ≤ (['A', 'B'] : Word).length ∧
      (['A', 'B'] : Word).length ≤ 11 ∧
      spellsOn S7 [(0, 0), (0, 1)] ['A', 'B'] ∧
      ['A', 'B'] ∈ (all_combos S7 D7 P7).map Found.word := by
  refine ⟨rfl, by decide, by decide, by decide, by decide, by decide, ?_⟩
  exact C1_coverage_amended S7 D7 P7 ['A', 'B'] [(0, 0), (0, 1)] rfl
    (by decide) (by decide) (by decide) (by decide) (by decide)

/-- A branch whose accumulated word is not a prefix of any dictionary
word emits nothing, even without pruning: every emission (entry hit or
max-length hit) requires a dictionary word extending the accumulated
word. -/
theorem dfsNP_eq_nil (S : Solver) (D : List Word) :
    ∀ (fuel : ℕ) (word : Word) (visited : Cell → Bool) (s : Cell)
      (word_pts word_mult : ℕ) (path : List Cell),
      (∀ d ∈ D, ¬ word <+: d) →
      dfsNP S D fuel visited s word word_pts word_mult path = [] := by
  intro fuel
  induction fuel with
  | zero => intros; rfl
  | succ f ih =>
    intro word visited s word_pts word_mult path h
    have hhits : ¬ (MIN_WORD_LEN ≤ word.length ∧ word ∈ D) := by
      rintro ⟨-, hmem⟩
      exact h word hmem (List.prefix_refl word)
    simp only [dfsNP, if_neg hhits, List.nil_append]
    rw [List.flatMap_eq_nil_iff]
    intro v hv
    by_cases hvis : mark visited s v
    · simp [hvis]
    · have hpre : word <+: word ++ [S.board v] := List.prefix_append word _
      have h' : ∀ d ∈ D, ¬ (word ++ [S.board v]) <+: d := by
        intro d hd hcon
        exact h d hd (hpre.trans hcon)
      have hmax : ¬ (word.length + 1 = MAX_WORD_LEN ∧ word ++ [S.board v] ∈ D) := by
        rintro ⟨-, hmem⟩
        exact h' _ hmem (List.prefix_refl _)
      by_cases hmin : MIN_WORD_LEN ≤ word.length + 1
      · simp only [Bool.not_eq_true] at hvis
        simp only [hvis, Bool.false_eq_true, if_false, if_pos hmin, if_neg hmax]
        exact ih _ _ _ _ _ _ h'
      · simp only [Bool.not_eq_true] at hvis
        simp only [hvis, Bool.false_eq_true, if_false, if_neg hmin]
        exact ih _ _ _ _ _ _ h'

/-- With prefix sets that contain every windowed prefix of every
dictionary word, the pruned and the pruning-free searches return the
very same record list: a branch the pruning skips has an accumulated
word that is not a prefix of any dictionary word, and such a branch
emits nothing anyway. -/
theorem dfs_eq_dfsNP (S : Solver) (D : List Word) (P : List (List Word))
    (hP : prefixClosed D P) :
    ∀ (fuel : ℕ) (visited : Cell → Bool) (s : Cell) (word : Word)
      (word_pts word_mult : ℕ) (path : List Cell),
      dfs S D P fuel visited s word word_pts word_mult path =
        dfsNP S D fuel visited s word word_pts word_mult path := by
  intro fuel
  induction fuel with
  | zero => intros; rfl
  | succ f ih =>
    intro visited s word word_pts word_mult path
    simp only [dfs, dfsNP]
    congr 1
    apply List.flatMap_congr
    intro v hv
    by_cases hvis : mark visited s v
    · simp [hvis]
    · simp only [Bool.not_eq_true] at hvis
      simp only [hvis, Bool.false_eq_true, if_false]
      by_cases hmin : MIN_WORD_LEN ≤ word.length + 1
      · simp only [if_pos hmin]
        by_cases hcut : PREFIX_LOWER_BOUND ≤ word.length + 1 ∧
            word.length + 1 ≤ PREFIX_UPPER_BOUND ∧
            word ++ [S.board v] ∉ P.getD (word.length + 1 - PREFIX_LOWER_BOUND) []
        · rw [if_pos hcut]
          have hmax : ¬ (word.length + 1 = MAX_WORD_LEN ∧ word ++ [S.board v] ∈ D) := by
            rintro ⟨h12, -⟩
            have : word.length + 1 ≤ PREFIX_UPPER_BOUND := hcut.2.1
            rw [h12] at this
            exact absurd this (by decide)
          rw [if_neg hmax]
          refine (dfsNP_eq_nil S D f _ _ _ _ _ _ ?_).symm
          intro d hd hpre
          have hlen : word.length + 1 ≤ d.length := by
            have := hpre.length_le
            simpa using this
          have htake : d.take (word.length + 1) ∈
              P.getD (word.length + 1 - PREFIX_LOWER_BOUND) [] := by
            refine hP d hd (word.length + 1) ?_ hlen
            exact Finset.mem_Icc.mpr ⟨hcut.1, hcut.2.1⟩
          have heq : word ++ [S.board v] = d.take (word.length + 1) := by
            have := List.prefix_iff_eq_take.mp hpre
            simpa using this
          exact hcut.2.2 (heq ▸ htake)
        · rw [if_neg hcut]
          by_cases hmax : word.length + 1 = MAX_WORD_LEN ∧ word ++ [S.board v] ∈ D
          · rw [if_pos hmax, if_pos hmax]
          · rw [if_neg hmax, if_neg hmax]
            exact ih _ _ _ _ _ _
      · simp only [if_neg hmin]
        exact ih _ _ _ _ _ _

/-- C7: with prefix sets containing every prefix (of length 2..8) of
every dictionary word, replacing the prefix-pruning test by one that
always passes changes nothing: the pruned and unpruned searches emit
the same record list, in particular the same set of word strings. -/
theorem C7_pruning_equiv (S : Solver) (D : List Word) (P : List (List Word))
    (hP : prefixClosed D P) :
    all_combos S D P = all_combosNP S D ∧
      ∀ w : Word, (w ∈ (all_combos S D P).map Found.word ↔
        w ∈ (all_combosNP S D).map Found.word) := by
  have hlist : all_combos S D P = all_combosNP S D := by
    unfold all_combos all_combos_fuel all_combosNP
    refine List.flatMap_congr fun x _ => List.flatMap_congr fun y _ => ?_
    exact dfs_eq_dfsNP S D P hP _ _ _ _ _ _ _
  exact ⟨hlist, fun w => by rw [hlist]⟩

/-- C7 witness: the equivalence instantiated on the `S7` fixture, whose
prefix sets are exactly the windowed prefixes of its dictionary. -/
theorem C7_witness :
    prefixClosed D7 P7 ∧
      all_combos S7 D7 P7 = all_combosNP S7 D7 ∧
      (['A', 'B'] ∈ (all_combos S7 D7 P7).map Found.word ↔
        ['A', 'B'] ∈ (all_combosNP S7 D7).map Found.word) := by
  have h : prefixClosed D7 P7 := by decide
  exact ⟨h, (C7_pruning_equiv S7 D7 P7 h).1, (C7_pruning_equiv S7 D7 P7 h).2 _⟩

/-- Strict monotonicity of `countP` when the predicate weakens
pointwise and fails somewhere it used to hold. -/
theorem countP_lt_of {α : Type} (p q : α → Bool) :
    ∀ (l : List α), (∀ a ∈ l, p a = true → q a = true) →
      ∀ a ∈ l, p a = false → q a = true → l.countP p < l.countP q := by
  intro l
  induction l with
  | nil => intro _ a ha; exact absurd ha (List.not_mem_nil a)
  | cons b t ih =>
    intro hpq a ha hpa hqa
    rw [List.countP_cons, List.countP_cons]
    rcases List.mem_cons.mp ha with rfl | hat
    · have ht : t.countP p ≤ t.countP q :=
        List.countP_mono_left fun x hx => hpq x (List.mem_cons_of_mem _ hx)
      rw [hpa, hqa]
      simp only [Bool.false_eq_true, if_false, if_pos]
      omega
    · have ht := ih (fun x hx => hpq x (List.mem_cons_of_mem _ hx)) a hat hpa hqa
      have hb : (if p b = true then 1 else 0) ≤ (if q b = true then 1 else 0) := by
        by_cases h : p b = true
        · rw [if_pos h, if_pos (hpq b (List.mem_cons_self b t) h)]
        · rw [if_neg h]
          split <;> omega
      omega

/-- Membership in the cell list is exactly in-bounds-ness. -/
theorem mem_cellsList (n : ℕ) (c : Cell) :
    c ∈ cellsList n ↔ c.1 < n ∧ c.2 < n := by
  obtain ⟨a, b⟩ := c
  simp [cellsList, List.mem_flatMap, List.mem_map, List.mem_range]

/-- Every `gen_graph` neighbour is in bounds. -/
theorem mem_gen_graph_lt (n : ℕ) (s v : Cell) (h : v ∈ gen_graph n s) :
    v.1 < n ∧ v.2 < n := by
  simp only [gen_graph, List.mem_filterMap] at h
  obtain ⟨d, _, hv⟩ := h
  split at hv
  · rename_i hcond
    obtain ⟨h1, h2, h3, h4⟩ := hcond
    cases hv
    constructor <;> simp <;> omega
  · cases hv

/-- Marking a cell can only shrink the unvisited pool. -/
theorem unvisitedCount_mark_le (n : ℕ) (visited : Cell → Bool) (c : Cell) :
    unvisitedCount n (mark visited c) ≤ unvisitedCount n visited := by
  refine List.countP_mono_left fun a _ h => ?_
  by_cases hac : a = c
  · subst hac
    simp [mark] at h
  · simpa [mark, hac] using h

/-- Marking an in-bounds unvisited cell strictly shrinks the pool. -/
theorem unvisitedCount_mark_lt (n : ℕ) (visited : Cell → Bool) (c : Cell)
    (h1 : visited c = false) (h2 : c.1 < n) (h3 : c.2 < n) :
    unvisitedCount n (mark visited c) < unvisitedCount n visited := by
  refine countP_lt_of _ _ (cellsList n) ?_ c ((mem_cellsList n c).mpr ⟨h2, h3⟩) ?_ ?_
  · intro a _ h
    by_cases hac : a = c
    · subst hac
      simp [mark] at h
    · simpa [mark, hac] using h
  · simp [mark]
  · simp [h1]

/-- Any two fuels above the unvisited-pool size give the same `dfs`
result: the recursion consumes at least one unvisited cell per call, so
the fuel guard never fires.  This is the termination argument of the
source recursion. -/
theorem dfs_fuel_congr (S : Solver) (D : List Word) (P : List (List Word)) :
    ∀ (f1 f2 : ℕ) (visited : Cell → Bool) (s : Cell) (word : Word)
      (word_pts word_mult : ℕ) (path : List Cell),
      unvisitedCount S.board_size visited < f1 →
      unvisitedCount S.board_size visited < f2 →
      dfs S D P f1 visited s word word_pts word_mult path =
        dfs S D P f2 visited s word word_pts word_mult path := by
  intro f1
  induction f1 with
  | zero =>
    intro f2 visited s word word_pts word_mult path h1 h2
    exact absurd h1 (by omega)
  | succ a ih =>
    intro f2 visited s word word_pts word_mult path h1 h2
    obtain ⟨b, rfl⟩ : ∃ b, f2 = b + 1 := ⟨f2 - 1, by omega⟩
    simp only [dfs]
    congr 1
    apply List.flatMap_congr
    intro v hv
    by_cases hvis : mark visited s v = true
    · simp [hvis]
    · simp only [Bool.not_eq_true] at hvis
      have hb := mem_gen_graph_lt S.board_size s v hv
      have hle := unvisitedCount_mark_le S.board_size visited s
      have hlt := unvisitedCount_mark_lt S.board_size (mark visited s) v hvis hb.1 hb.2
      have hrec := ih b (mark (mark visited s) v) v (word ++ [S.board v])
        (word_pts + S.points v) (word_mult * S.word_int_mults v) (path ++ [v])
        (by omega) (by omega)
      simp only [hvis, Bool.false_eq_true, if_false]
      by_cases hmin : MIN_WORD_LEN ≤ word.length + 1
      · simp only [if_pos hmin]
        by_cases hcut : PREFIX_LOWER_BOUND ≤ word.length + 1 ∧
            word.length + 1 ≤ PREFIX_UPPER_BOUND ∧
            word ++ [S.board v] ∉ P.getD (word.length + 1 - PREFIX_LOWER_BOUND) []
        · simp only [if_pos hcut]
        · simp only [if_neg hcut]
          by_cases hmax : word.length + 1 = MAX_WORD_LEN ∧ word ++ [S.board v] ∈ D
          · simp only [if_pos hmax]
          · simp only [if_neg hmax]
            exact hrec
      · simp only [if_neg hmin]
        exact hrec

/-- The board has `n * n` cells. -/
theorem cellsList_length (n : ℕ) : (cellsList n).length = n * n := by
  simp [cellsList, List.length_flatMap, Function.comp_def]

/-- The unvisited pool never exceeds the number of cells. -/
theorem unvisitedCount_le_sq (n : ℕ) (visited : Cell → Bool) :
    unvisitedCount n visited ≤ n ^ 2 := by
  calc unvisitedCount n visited ≤ (cellsList n).length := List.countP_le_length _
  _ = n * n := cellsList_length n
  _ = n ^ 2 := (sq n).symm

/-- Any fuel above the cell count computes `all_combos`. -/
theorem all_combos_fuel_irrel (S : Solver) (D : List Word) (P : List (List Word))
    (fuel : ℕ) (hf : S.board_size ^ 2 + 1 ≤ fuel) :
    all_combos_fuel S D P fuel = all_combos S D P := by
  unfold all_combos all_combos_fuel
  refine List.flatMap_congr fun x _ => List.flatMap_congr fun y _ => ?_
  have hU := unvisitedCount_le_sq S.board_size fun _ => false
  exact dfs_fuel_congr S D P fuel (S.board_size ^ 2 + 1) _ _ _ _ _ _
    (by omega) (by omega)

/-- Every word a `dfs` invocation is started with is bounded by the
cell count: each recursion step adds one letter and removes one cell
from the unvisited pool. -/
theorem dfsWords_le (S : Solver) (D : List Word) (P : List (List Word)) :
    ∀ (fuel : ℕ) (visited : Cell → Bool) (s : Cell) (word : Word),
      word.length + unvisitedCount S.board_size (mark visited s) ≤ S.board_size ^ 2 →
      ∀ w ∈ dfsWords S D P fuel visited s word, w.length ≤ S.board_size ^ 2 := by
  intro fuel
  induction fuel with
  | zero =>
    intro visited s word hinv w hw
    simp only [dfsWords, List.mem_singleton] at hw
    subst hw
    omega
  | succ f ih =>
    intro visited s word hinv w hw
    simp only [dfsWords] at hw
    rcases List.mem_cons.mp hw with rfl | hw2
    · omega
    · obtain ⟨v, hv, hwb⟩ := List.mem_flatMap.mp hw2
      by_cases hvis : mark visited s v = true
      · simp [hvis] at hwb
      · simp only [Bool.not_eq_true] at hvis
        simp only [hvis, Bool.false_eq_true, if_false] at hwb
        have hb := mem_gen_graph_lt S.board_size s v hv
        have hlt := unvisitedCount_mark_lt S.board_size (mark visited s) v hvis hb.1 hb.2
        have hmm : mark (mark (mark visited s) v) v = mark (mark visited s) v := by
          funext c
          by_cases hc : c = v <;> simp [mark, hc]
        have hinv2 : (word ++ [S.board v]).length +
            unvisitedCount S.board_size (mark (mark (mark visited s) v) v) ≤
            S.board_size ^ 2 := by
          rw [hmm]
          simp only [List.length_append, List.length_singleton]
          omega
        by_cases hmin : MIN_WORD_LEN ≤ word.length + 1
        · simp only [if_pos hmin] at hwb
          by_cases hcut : PREFIX_LOWER_BOUND ≤ word.length + 1 ∧
              word.length + 1 ≤ PREFIX_UPPER_BOUND ∧
              word ++ [S.board v] ∉ P.getD (word.length + 1 - PREFIX_LOWER_BOUND) []
          · rw [if_pos hcut] at hwb
            exact absurd hwb (List.not_mem_nil w)
          · simp only [if_neg hcut] at hwb
            by_cases hmax : word.length + 1 = MAX_WORD_LEN ∧ word ++ [S.board v] ∈ D
            · rw [if_pos hmax] at hwb
              exact absurd hwb (List.not_mem_nil w)
            · simp only [if_neg hmax] at hwb
              exact ih (mark (mark visited s) v) v (word ++ [S.board v]) hinv2 w hwb
        · simp only [if_neg hmin] at hwb
          exact ih (mark (mark visited s) v) v (word ++ [S.board v]) hinv2 w hwb

/-- C8 (amended): the search terminates — any fuel above the 17-call
bound computes the same result — and the recursion depth is bounded by
the shrinking pool of unvisited cells, i.e. every `dfs` invocation word
has at most `boardSize² = 16` letters.  The claimed `maxWordLength = 12`
bound is refuted separately. -/
theorem C8_termination_amended (S : Solver) (D : List Word)
    (P : List (List Word)) (fuel : ℕ) (h4 : S.board_size = 4)
    (hf : S.board_size ^ 2 + 1 ≤ fuel) :
    all_combos_fuel S D P fuel = all_combos S D P ∧
      ∀ w ∈ all_combos_words S D P, w.length ≤ S.board_size ^ 2 := by
  refine ⟨all_combos_fuel_irrel S D P fuel hf, ?_⟩
  intro w hw
  unfold all_combos_words at hw
  obtain ⟨x, hx, hw⟩ := List.mem_flatMap.mp hw
  obtain ⟨y, hy, hw⟩ := List.mem_flatMap.mp hw
  refine dfsWords_le S D P _ (fun _ => false) (x, y) [S.board (x, y)] ?_ w hw
  have hx4 : x < 4 := by simpa [BOARD_SIZE] using List.mem_range.mp hx
  have hy4 : y < 4 := by simpa [BOARD_SIZE] using List.mem_range.mp hy
  have hlt : unvisitedCount S.board_size (mark (fun _ => false) (x, y)) <
      unvisitedCount S.board_size fun _ => false := by
    refine unvisitedCount_mark_lt S.board_size _ (x, y) rfl ?_ ?_ <;>
      simp [h4, hx4, hy4]
  have hle := unvisitedCount_le_sq S.board_size fun _ => false
  simp only [List.length_singleton]
  omega

/-- C8 witness: termination and the pool bound on the `S7` fixture with
fuel 18. -/
theorem C8_termination_witness :
    S7.board_size = 4 ∧ S7.board_size ^ 2 + 1 ≤ 18 ∧
      (all_combos_fuel S7 D7 P7 18 = all_combos S7 D7 P7 ∧
        ∀ w ∈ all_combos_words S7 D7 P7, w.length ≤ S7.board_size ^ 2) := by
  exact ⟨rfl, by decide, C8_termination_amended S7 D7 P7 18 rfl (by decide)⟩

/-- C8 (counterexample): on the walled board `S8` with an empty
dictionary the search invokes `dfs` with the 13-letter accumulated word
`w13`, exceeding the claimed `MAX_WORD_LEN = 12` bound on recursion
depth. -/
theorem C8_depth_cex :
    w13 ∈ all_combos_words S8 [] P8 ∧ MAX_WORD_LEN < w13.length := by
  refine ⟨by decide, by decide⟩

/-- Inserting into a sorted list permutes the cons. -/
theorem insertByScore_perm (a : Found) :
    ∀ l : List Found, (insertByScore a l).Perm (a :: l) := by
  intro l
  induction l with
  | nil => exact List.Perm.refl _
  | cons b t ih =>
    by_cases h : a.score ≤ b.score
    · simp only [insertByScore, if_pos h]
      exact List.Perm.refl _
    · simp only [insertByScore, if_neg h]
      exact (ih.cons b).trans (List.Perm.swap a b t)

/-- The insertion sort permutes its input. -/
theorem sortByScore_perm : ∀ l : List Found, (sortByScore l).Perm l := by
  intro l
  induction l with
  | nil => exact List.Perm.refl _
  | cons a t ih =>
    exact (insertByScore_perm a (sortByScore t)).trans (ih.cons a)

/-- Insertion preserves ascending-by-score sortedness. -/
theorem insertByScore_sorted (a : Found) :
    ∀ l : List Found, l.Pairwise (fun x y => x.score ≤ y.score) →
      (insertByScore a l).Pairwise fun x y => x.score ≤ y.score := by
  intro l
  induction l with
  | nil =>
    intro
    simp [insertByScore]
  | cons b t ih =>
    intro hs
    obtain ⟨hb, ht⟩ := List.pairwise_cons.mp hs
    by_cases h : a.score ≤ b.score
    · simp only [insertByScore, if_pos h]
      refine List.pairwise_cons.mpr ⟨?_, hs⟩
      intro x hx
      rcases List.mem_cons.mp hx with rfl | hxt
      · exact h
      · exact h.trans (hb x hxt)
    · simp only [insertByScore, if_neg h]
      refine List.pairwise_cons.mpr ⟨?_, ih ht⟩
      intro x hx
      have hx2 := (insertByScore_perm a t).mem_iff.mp hx
      rcases List.mem_cons.mp hx2 with rfl | hxt
      · omega
      · exact hb x hxt

/-- The insertion sort sorts ascending by score. -/
theorem sortByScore_sorted :
    ∀ l : List Found, (sortByScore l).Pairwise fun x y => x.score ≤ y.score := by
  intro l
  induction l with
  | nil => simp [sortByScore]
  | cons a t ih => exact insertByScore_sorted a (sortByScore t) ih

/-- The dict built by iterated assignment answers each key with the
value of the last record carrying it. -/
theorem pyDict_foldl_eq (w : Word) :
    ∀ (l : List Found) (m : Word → Option (ℕ × List Cell)),
      l.foldl pyDictAssign m w =
        (match l.reverse.find? fun r => decide (w = r.word) with
         | some r => some (r.score, r.path)
         | none => m w) := by
  intro l
  induction l with
  | nil => intro m; rfl
  | cons e t ih =>
    intro m
    rw [List.foldl_cons, ih (pyDictAssign m e)]
    rw [List.reverse_cons, List.find?_append]
    cases h : t.reverse.find? fun r => decide (w = r.word) with
    | some r => simp [h]
    | none =>
      simp only [h, Option.none_or]
      by_cases hw : w = e.word
      · simp [List.find?, hw, pyDictAssign]
      · simp [List.find?, hw, pyDictAssign]

/-- In a list sorted descending by score, the first hit of `find?`
dominates every hit. -/
theorem find?_max_of_sorted (p : Found → Bool) :
    ∀ l : List Found, l.Pairwise (fun a b => b.score ≤ a.score) →
      ∀ r₀, l.find? p = some r₀ → ∀ r ∈ l, p r = true → r.score ≤ r₀.score := by
  intro l
  induction l with
  | nil =>
    intro _ r₀ h
    exact absurd h (by simp)
  | cons a t ih =>
    intro hs r₀ hfind r hr hpr
    obtain ⟨ha, ht⟩ := List.pairwise_cons.mp hs
    by_cases hpa : p a = true
    · rw [List.find?_cons_of_pos _ hpa] at hfind
      cases hfind
      rcases List.mem_cons.mp hr with rfl | hrt
      · exact Nat.le_refl _
      · exact ha r hrt
    · rw [List.find?_cons_of_neg _ hpa] at hfind
      rcases List.mem_cons.mp hr with rfl | hrt
      · exact absurd hpr hpa
      · exact ih ht r₀ hfind r hrt hpr

/-- Best-per-word property of `check_words` without base removal, for
an arbitrary record list: every dictionary word carried by some record
gets exactly one mapping entry, whose score is the maximum over all
records carrying that word. -/
theorem check_words_best (D : List Word) (recs : List Found) (w : Word)
    (hwD : w ∈ D) (hex : ∃ r ∈ recs, r.word = w) :
    ∃ sc pa, check_words D recs false w = some (sc, pa) ∧
      (∃ r ∈ recs, r.word = w ∧ r.score = sc) ∧
      ∀ r ∈ recs, r.word = w → r.score ≤ sc := by
  classical
  set l0 : List Found := recs.filter (fun r => decide (r.word ∈ D)) with hl0
  have hmem : ∀ r : Found, r ∈ sortByScore l0 ↔ r ∈ recs ∧ r.word ∈ D := by
    intro r
    rw [(sortByScore_perm l0).mem_iff, hl0, List.mem_filter]
    simp
  have hcw : check_words D recs false w =
      (sortByScore l0).foldl pyDictAssign (fun _ => none) w := rfl
  rw [hcw, pyDict_foldl_eq w (sortByScore l0) fun _ => none]
  have hpair : (sortByScore l0).reverse.Pairwise fun a b => b.score ≤ a.score := by
    rw [List.pairwise_reverse]
    exact sortByScore_sorted l0
  obtain ⟨rw0, hrw0, hrw0w⟩ := hex
  have hrev : rw0 ∈ (sortByScore l0).reverse := by
    rw [List.mem_reverse, hmem]
    exact ⟨hrw0, hrw0w ▸ hwD⟩
  have hsome : ((sortByScore l0).reverse.find? fun r => decide (w = r.word)).isSome := by
    rw [List.find?_isSome]
    exact ⟨rw0, hrev, by simp [hrw0w]⟩
  obtain ⟨r₀, hr₀⟩ := Option.isSome_iff_exists.mp hsome
  have hr₀w : w = r₀.word := by
    have := List.find?_some hr₀
    simpa using this
  have hr₀mem : r₀ ∈ recs ∧ r₀.word ∈ D := by
    rw [← hmem, ← List.mem_reverse]
    exact List.mem_of_find?_eq_some hr₀
  refine ⟨r₀.score, r₀.path, by rw [hr₀], ⟨r₀, hr₀mem.1, hr₀w.symm, rfl⟩, ?_⟩
  intro r hr hrw
  have hrrev : r ∈ (sortByScore l0).reverse := by
    rw [List.mem_reverse, hmem]
    exact ⟨hr, hrw ▸ hwD⟩
  exact find?_max_of_sorted _ _ hpair r₀ hr₀ r hrrev (by simp [hrw])

/-- C6 (amended): for every distinct word string that is carried by a
found record *and belongs to the dictionary*, the `check_words` mapping
(with `remove_bases=False`) holds exactly one `(score, path)` entry for
it, and that score is the maximum over all found records for the word.
The dictionary restriction is forced by the counterexample: the search
can emit a non-dictionary word, which the re-filter then drops. -/
theorem C6_best_per_word_amended (S : Solver) (D : List Word)
    (P : List (List Word)) (w : Word) (hwD : w ∈ D)
    (hex : ∃ r ∈ all_combos S D P, r.word = w) :
    ∃ sc pa, check_words D (all_combos S D P) false w = some (sc, pa) ∧
      (∃ r ∈ all_combos S D P, r.word = w ∧ r.score = sc) ∧
      ∀ r ∈ all_combos S D P, r.word = w → r.score ≤ sc :=
  check_words_best D (all_combos S D P) w hwD hex

/-- C6 witness: the best-per-word property on the `S7` fixture, whose
search finds the single word `AB` with score 2. -/
theorem C6_best_per_word_witness :
    (['A', 'B'] : Word) ∈ D7 ∧
      (∃ r ∈ all_combos S7 D7 P7, r.word = ['A', 'B']) ∧
      ∃ sc pa,
        check_words D7 (all_combos S7 D7 P7) false ['A', 'B'] = some (sc, pa) ∧
        (∃ r ∈ all_combos S7 D7 P7, r.word = ['A', 'B'] ∧ r.score = sc) ∧
        ∀ r ∈ all_combos S7 D7 P7, r.word = ['A', 'B'] → r.score ≤ sc := by
  refine ⟨by decide, ?_, ?_⟩
  · decide
  · exact C6_best_per_word_amended S7 D7 P7 ['A', 'B'] (by decide) (by decide)

/-- C9 (counterexample): a non-square board (row 0 has five letters) is
accepted by construction — `__init__` never checks the shape, and
`get_points` only reads the 4×4 core. -/
theorem C9_fail_fast_cex :
    ¬ IsSquareBoard board5 ∧ (initSolver board5 mults4).isSome = true := by
  refine ⟨by decide, by decide⟩

/-- A monadic map over `Option` succeeds when every element does. -/
theorem optionMapM_isSome_of {α β : Type} (f : α → Option β) :
    ∀ l : List α, (∀ a ∈ l, (f a).isSome = true) → (l.mapM f).isSome = true := by
  intro l
  induction l with
  | nil => intro; rfl
  | cons a t ih =>
    intro h
    obtain ⟨b, hb⟩ := Option.isSome_iff_exists.mp (h a (List.mem_cons_self a t))
    obtain ⟨bs, hbs⟩ := Option.isSome_iff_exists.mp
      (ih fun x hx => h x (List.mem_cons_of_mem a hx))
    rw [List.mapM_cons, hb, hbs]
    rfl

/-- A monadic map over `Option` succeeds only if every element does. -/
theorem optionMapM_forall_of_isSome {α β : Type} (f : α → Option β) :
    ∀ l : List α, (l.mapM f).isSome = true → ∀ a ∈ l, (f a).isSome = true := by
  intro l
  induction l with
  | nil =>
    intro _ a ha
    exact absurd ha (List.not_mem_nil a)
  | cons a t ih =>
    intro h x hx
    rw [List.mapM_cons] at h
    cases hfa : f a with
    | none => rw [hfa] at h; simp at h
    | some b =>
      rw [hfa] at h
      cases hmt : t.mapM f with
      | none => rw [hmt] at h; simp at h
      | some bs =>
        rcases List.mem_cons.mp hx with rfl | hxt
        · rw [hfa]; rfl
        · exact ih (by rw [hmt]; rfl) x hxt

/-- C9 (amended): under the shape conditions actually exercised by the
constructor (four board rows, each with at least four cells; a 4×4-or-
larger multiplier grid), construction succeeds exactly when every
letter of the 4×4 core has a table entry — a letter outside A–Z aborts
construction with an uncaught `KeyError`, but squareness is never
validated (see the counterexample), and a digit multiplier tag is taken
at its integer value rather than defaulted to 1 (only non-digit tags
default). -/
theorem C9_construction_amended (board : List (List Char))
    (word_mults : List (List (List Char)))
    (hb : board.length = 4) (hbr : ∀ row ∈ board, 4 ≤ row.length)
    (hm : word_mults.length = 4) (hmr : ∀ row ∈ word_mults, 4 ≤ row.length) :
    ((initSolver board word_mults).isSome = true ↔ lettersOk board) ∧
      (∀ m : List Char, pyIsDigit m = false → tag_int_mult m = 1) ∧
      tag_int_mult ['5'] = 5 := by
  refine ⟨?_, ?_, by decide⟩
  swap
  · intro m hdig
    simp [tag_int_mult, hdig]
  have hmget : ∀ i < 4, ∀ j < 4, ∃ row m0,
      word_mults[i]? = some row ∧ row[j]? = some m0 := by
    intro i hi j hj
    have hi2 : i < word_mults.length := by omega
    have hrowmem : word_mults[i] ∈ word_mults := List.getElem_mem hi2
    have hlen := hmr _ hrowmem
    have hj2 : j < word_mults[i].length := by omega
    exact ⟨word_mults[i], word_mults[i][j], List.getElem?_eq_getElem hi2,
      List.getElem?_eq_getElem hj2⟩
  have hwmta : (word_mults_to_int_array word_mults board.length).isSome = true := by
    rw [hb]
    unfold word_mults_to_int_array
    refine optionMapM_isSome_of _ _ fun i hi => ?_
    refine optionMapM_isSome_of _ _ fun j hj => ?_
    have hi4 := List.mem_range.mp hi
    have hj4 := List.mem_range.mp hj
    obtain ⟨row, m0, hrow, hm0⟩ := hmget i hi4 j hj4
    simp [hrow, hm0]
  obtain ⟨wim, hwim⟩ := Option.isSome_iff_exists.mp hwmta
  have hinit : (initSolver board word_mults).isSome =
      (get_points board word_mults).isSome := by
    unfold initSolver
    cases hgp : get_points board word_mults <;> simp [hwim, hgp]
  rw [hinit]
  constructor
  · intro h row hrowmem l hl
    obtain ⟨i, hi, hrowg⟩ := List.mem_iff_getElem.mp hrowmem
    obtain ⟨j, hj, hlg⟩ := List.mem_iff_getElem.mp hl
    have hi4 : i < 4 := by omega
    have htl := List.length_take 4 row
    have hj4 : j < 4 := by omega
    have hjrow : j < row.length := by omega
    have hrowq : board[i]? = some row := by
      rw [List.getElem?_eq_getElem hi, hrowg]
    have hlq : row[j]? = some l := by
      have h1 : (row.take 4)[j]? = some l := by
        rw [List.getElem?_eq_getElem hj, hlg]
      rwa [List.getElem?_take_of_lt hj4] at h1
    unfold get_points at h
    have h1 := optionMapM_forall_of_isSome _ _ h i (List.mem_range.mpr hi4)
    have h2 := optionMapM_forall_of_isSome _ _ h1 j (List.mem_range.mpr hj4)
    obtain ⟨mrow, m0, hmrow, hm0⟩ := hmget i hi4 j hj4
    cases hlp : get_letter_pts l with
    | some pts => simp
    | none =>
      exfalso
      simp [hrowq, hlq, hmrow, hm0, hlp] at h2
  · intro hok
    unfold get_points
    refine optionMapM_isSome_of _ _ fun i hi => ?_
    refine optionMapM_isSome_of _ _ fun j hj => ?_
    have hi4 := List.mem_range.mp hi
    have hj4 := List.mem_range.mp hj
    have hi2 : i < board.length := by omega
    have hrowq : board[i]? = some board[i] := List.getElem?_eq_getElem hi2
    have hrowmem : board[i] ∈ board := List.getElem_mem hi2
    have hrlen : 4 ≤ board[i].length := hbr _ hrowmem
    have hj2 : j < board[i].length := by omega
    have hlq : board[i][j]? = some board[i][j] := List.getElem?_eq_getElem hj2
    have hl4 : board[i][j] ∈ board[i].take 4 := by
      have htq : (board[i].take 4)[j]? = some board[i][j] := by
        rw [List.getElem?_take_of_lt hj4]
        exact hlq
      exact List.getElem?_mem htq
    obtain ⟨pts, hpts⟩ := Option.isSome_iff_exists.mp (hok _ hrowmem _ hl4)
    obtain ⟨mrow, m0, hmrow, hm0⟩ := hmget i hi4 j hj4
    simp [hrowq, hlq, hpts, hmrow, hm0]

/-- C9 witness: the characterization applied to the square fixture
`board4`, all of whose core letters are A–Z. -/
theorem C9_construction_witness :
    board4.length = 4 ∧ (∀ row ∈ board4, 4 ≤ row.length) ∧
      mults4.length = 4 ∧ (∀ row ∈ mults4, 4 ≤ row.length) ∧
      (((initSolver board4 mults4).isSome = true ↔ lettersOk board4) ∧
        (∀ m : List Char, pyIsDigit m = false → tag_int_mult m = 1) ∧
        tag_int_mult ['5'] = 5) := by
  refine ⟨rfl, by decide, rfl, by decide, ?_⟩
  exact C9_construction_amended board4 mults4 rfl (by decide) rfl (by decide)

/-- C10 (confirmed): `all_combos` is memoizing and idempotent — if
`possible_words` is non-empty the cached list is returned with the state
unchanged, and a second call after any first call returns exactly the
same state and list as the first call. -/
theorem C10_all_combos_idempotent (st : SearchState) :
    (st.possible_words ≠ [] → all_combos_cached st = (st, st.possible_words)) ∧
      all_combos_cached (all_combos_cached st).1 = all_combos_cached st := by
  constructor
  · intro h
    simp only [all_combos_cached, if_pos h]
  · by_cases h : st.possible_words = []
    · simp only [all_combos_cached, h]
      by_cases hr : all_combos st.solver st.D st.P = []
      · have hst : ({ st with possible_words := all_combos st.solver st.D st.P } :
            SearchState) = st := by
          cases st with
          | mk s d p pw => simp_all
        simp [hst, hr, h]
      · simp [hr, h]
    · simp only [all_combos_cached, if_pos h]

/-- C10 witness: the memo branch at a concrete cached state. -/
theorem C10_witness :
    stCached.possible_words ≠ [] ∧
      all_combos_cached stCached = (stCached, stCached.possible_words) ∧
      all_combos_cached (all_combos_cached stCached).1 =
        all_combos_cached stCached := by
  have h : stCached.possible_words ≠ [] := by decide
  exact ⟨h, (C10_all_combos_idempotent stCached).1 h,
    (C10_all_combos_idempotent stCached).2⟩

end Ruzzle
